import Mathlib

/-!
Verification of the invoice layout and pagination engine of
src/invoice_generator.py (function generate_invoice_pdf and its helpers
wrap_lines, wrap_lines_right, draw_wrapped, money, and the CSV item-cell
parsing loop of generate_batch).

Modelling conventions:
* Strings are lists of characters (Python iterates over characters).
* Numbers (quantities, prices, rates, page coordinates) are rationals; the
  reportlab constants mm and A4 are the exact rationals 72/25.4 and
  (210*mm, 297*mm).
* The text measurer pdfmetrics.stringWidth is an external collaborator; it is
  modelled, as in reportlab, as the sum of per-character widths, and each
  embedding is parametrised over the width table cw (one table per font size).
* Python's builtin str() applied to a number (used for the quantity cell) is
  an external collaborator pyStr; Python's float() parser (used by
  generate_batch) is an external collaborator pf returning none on ValueError.
* The drawing canvas is replaced by a list of draw instructions; c.showPage()
  becomes the instruction newPage.
* Source lines 211-217 of src/invoice_generator.py are accidentally dedented
  to module level (as written the file is not valid Python: the function's own
  `return` would fall outside any function).  They are embedded as part of
  generate_invoice_pdf, the only coherent reading.
-/

namespace Invoice

/-- Strings are modelled as lists of characters. -/
abbrev Str := List Char

/-- Modelled from reportlab: pdfmetrics.stringWidth for a fixed font and size
is the sum of the per-character widths given by the width table cw. -/
def stringWidth (cw : Char → ℚ) (s : Str) : ℚ := (s.map cw).sum

/-- The character loop of wrap_lines (src lines 98-107): greedily pack
characters into the accumulator cur; when the candidate cur ++ [ch] no longer
fits, emit cur and restart from [ch]; at the end emit cur if non-empty. -/
def wrapLoop (cw : Char → ℚ) (maxW : ℚ) : Str → Str → List Str
  | cur, [] => if cur = [] then [] else [cur]
  | cur, ch :: rest =>
      if stringWidth cw (cur ++ [ch]) ≤ maxW then wrapLoop cw maxW (cur ++ [ch]) rest
      else cur :: wrapLoop cw maxW [ch] rest

/-- wrap_lines (src lines 95-108): run the loop from an empty accumulator and
return [""] when nothing was produced (the source's `return lines or [""]`). -/
def wrap_lines (cw : Char → ℚ) (maxW : ℚ) (s : Str) : List Str :=
  if wrapLoop cw maxW [] s = [] then [[]] else wrapLoop cw maxW [] s

/-- wrap_lines_right (src lines 110-112) is literally wrap_lines; only the
draw-time anchor differs. -/
def wrap_lines_right (cw : Char → ℚ) (maxW : ℚ) (s : Str) : List Str :=
  wrap_lines cw maxW s

/-! ### Number formatting (Python f-string specs ",.0f", ",.2f", ".0f") -/

/-- Decimal digit character for d % 10. -/
def digitChar (d : ℕ) : Char := Char.ofNat (48 + d % 10)

/-- Fuel-driven base-10 digit extraction, least significant digit first. -/
def digitsAux : ℕ → ℕ → List ℕ
  | 0, _ => []
  | fuel + 1, n => if n = 0 then [] else n % 10 :: digitsAux fuel (n / 10)

/-- Base-10 digits of n, least significant first ([] for 0). -/
def natDigitsLSF (n : ℕ) : List ℕ := digitsAux n n

/-- Ungrouped decimal rendering of a natural number, most significant first. -/
def natCharsMSF (n : ℕ) : List Char :=
  if n = 0 then ['0'] else ((natDigitsLSF n).map digitChar).reverse

/-- Insert a comma after every third digit (input least-significant-first,
counter k counts digits already emitted); no comma after the last digit. -/
def groupLSF : List Char → ℕ → List Char
  | [], _ => []
  | d :: rest, k =>
      if k % 3 = 2 ∧ rest ≠ [] then d :: ',' :: groupLSF rest (k + 1)
      else d :: groupLSF rest (k + 1)

/-- Thousands-grouped decimal rendering of a natural number (Python ","). -/
def natCharsGroupedMSF (n : ℕ) : List Char :=
  if n = 0 then ['0'] else (groupLSF ((natDigitsLSF n).map digitChar) 0).reverse

/-- Python's round-half-to-even, as used by float formatting. -/
def roundHalfEven (q : ℚ) : ℤ :=
  let f : ℤ := ⌊q⌋
  let r : ℚ := q - (f : ℚ)
  if r < 1 / 2 then f
  else if 1 / 2 < r then f + 1
  else if f % 2 = 0 then f else f + 1

/-- Left-pad a digit string with zeros to length d. -/
def padZeros (d : ℕ) (cs : List Char) : List Char :=
  List.replicate (d - cs.length) '0' ++ cs

/-- Python fixed-point formatting f-string spec: grouped toggles the ","
thousands separator, d is the number of fractional digits.  The value is
rounded half-to-even at the last kept fractional digit. -/
def formatFixed (grouped : Bool) (d : ℕ) (v : ℚ) : List Char :=
  let m : ℕ := (roundHalfEven (|v| * (10 : ℚ) ^ d)).toNat
  let ip : ℕ := m / 10 ^ d
  let fp : ℕ := m % 10 ^ d
  let ipChars := if grouped then natCharsGroupedMSF ip else natCharsMSF ip
  let fpChars := padZeros d ((natDigitsLSF fp).map digitChar).reverse
  (if v < 0 then ['-'] else []) ++ ipChars ++ (if d = 0 then [] else '.' :: fpChars)

/-- The currency code "JPY". -/
def jpy : Str := "JPY".toList

/-- money (src lines 272-274), closed over the invoice's currency code:
JPY renders f-string spec ",.0f" with a "¥" prefix, every other code renders
",.2f" with no symbol. -/
def money (currency : Str) (v : ℚ) : Str :=
  if currency = jpy then '¥' :: formatFixed true 0 v else formatFixed true 2 v

/-- data.get("currency", "JPY") (src lines 270, 224): an absent currency code
defaults to "JPY"; a present code is used as-is. -/
def effCurrency (o : Option Str) : Str := o.getD jpy

/-- Python int() truncation toward zero (used in the totals labels). -/
def pyInt (q : ℚ) : ℤ := if 0 ≤ q then ⌊q⌋ else -⌊-q⌋

/-- Ungrouped decimal rendering of an integer (Python f"{n}"). -/
def intChars (n : ℤ) : List Char :=
  (if n < 0 then ['-'] else []) ++ natCharsMSF n.natAbs

/-! ### Page geometry (reportlab constants, exact rationals) -/

/-- reportlab.lib.units.mm = 72 / 25.4. -/
def mm : ℚ := 360 / 127

/-- A4 page width, 210 mm. -/
def pageW : ℚ := 210 * mm

/-- A4 page height, 297 mm. -/
def pageH : ℚ := 297 * mm

/-- margin_x = 18 * mm (src line 120). -/
def margin_x : ℚ := 18 * mm

/-- margin_y = 18 * mm (src line 121). -/
def margin_y : ℚ := 18 * mm

/-- Table column boundaries col_x[0..4] (src line 260). -/
def colx0 : ℚ := margin_x
def colx1 : ℚ := margin_x + 90 * mm
def colx2 : ℚ := margin_x + 120 * mm
def colx3 : ℚ := margin_x + 145 * mm
def colx4 : ℚ := pageW - margin_x

/-- Cell padding pad_l = pad_r = 2 * mm (src line 276). -/
def pad_l : ℚ := 2 * mm
def pad_r : ℚ := 2 * mm

/-- Interior wrap width of the description column (src line 277). -/
def w_desc : ℚ := (colx1 - colx0) - (pad_l + pad_r)

/-- Interior wrap width of the quantity column (src line 278). -/
def w_qty : ℚ := (colx2 - colx1) - (pad_l + pad_r)

/-- Interior wrap width of the unit-price column (src line 279). -/
def w_unit : ℚ := (colx3 - colx2) - (pad_l + pad_r)

/-- Interior wrap width of the subtotal column (src line 280). -/
def w_sub : ℚ := (colx4 - colx3) - (pad_l + pad_r)

/-- Row line height line_h = 14 (src line 281). -/
def line_h : ℚ := 14

/-- Cursor reset position after a table page break (src line 314). -/
def resetRowY : ℚ := pageH - margin_y - 40 * mm

/-! ### Data model and draw instructions -/

/-- One line item: (desc, qty, unit, taxv) with taxv the optional per-item
tax rate; none covers both a missing fourth component and the values None/""
that src line 295 treats as absent. -/
structure Item where
  desc : Str
  qty : ℚ
  unit : ℚ
  taxv : Option ℚ
deriving DecidableEq

/-- The invoice record handed to generate_invoice_pdf.  Text fields model
data.get(key, "") (absent keys behave as ""); currency models the raw
optional "currency" entry; tax_rate models float(data.get("tax_rate") or 0),
already parsed. -/
structure InvoiceData where
  title : Str
  seller_name : Str
  seller_address : Str
  seller_email : Str
  seller_phone : Str
  buyer_name : Str
  buyer_address : Str
  buyer_email : Str
  buyer_phone : Str
  invoice_no : Str
  date : Str
  due_date : Str
  currency : Option Str
  tax_rate : ℚ
  note : Str
  items : List Item
deriving DecidableEq

/-- External collaborators of one render: the per-size character width tables
of pdfmetrics.stringWidth, Python's str() on a number (quantity cell), and
whether static/logo.png exists. -/
structure Ctx where
  cw : ℚ → Char → ℚ
  pyStr : ℚ → Str
  hasLogo : Bool

/-- Canvas draw instructions: drawString, drawRightString, line, drawImage,
setFont, and showPage (finalize current page and start a new one). -/
inductive Instr where
  | text (x y : ℚ) (s : Str)
  | rtext (x y : ℚ) (s : Str)
  | hline (x1 y1 x2 y2 : ℚ)
  | image (x y w h : ℚ)
  | setFont (size : ℚ)
  | newPage
deriving DecidableEq

/-- The y coordinate at which a text instruction draws (0 for non-text). -/
def yCoord : Instr → ℚ
  | .text _ y _ => y
  | .rtext _ y _ => y
  | _ => 0

/-! ### draw_wrapped and the header phase -/

/-- The character loop of draw_wrapped (src lines 81-93): like wrapLoop but
emitting a drawString and moving the cursor down by line_height per emitted
line; returns the instructions and the next y. -/
def drawWrappedAux (cw : Char → ℚ) (x maxW lineH : ℚ) : Str → ℚ → Str → List Instr × ℚ
  | cur, y, [] => if cur = [] then ([], y) else ([Instr.text x y cur], y - lineH)
  | cur, y, ch :: rest =>
      if stringWidth cw (cur ++ [ch]) ≤ maxW then
        drawWrappedAux cw x maxW lineH (cur ++ [ch]) y rest
      else
        let r := drawWrappedAux cw x maxW lineH [ch] (y - lineH) rest
        (Instr.text x y cur :: r.1, r.2)

/-- draw_wrapped (src lines 78-93): set the font, then run the loop from an
empty accumulator. -/
def draw_wrapped (cw : Char → ℚ) (size x y maxW lineH : ℚ) (t : Str) : List Instr × ℚ :=
  let r := drawWrappedAux cw x maxW lineH [] y t
  (Instr.setFont size :: r.1, r.2)

/-- The seller/buyer block loops (src lines 198-204, 247-253): draw_wrapped
for each non-empty line, threading y. -/
def drawBlock (cw : Char → ℚ) (x maxW : ℚ) : ℚ → List Str → List Instr × ℚ
  | y, [] => ([], y)
  | y, l :: ls =>
      if l = [] then drawBlock cw x maxW y ls
      else
        let r := draw_wrapped cw 10 x y maxW 12 l
        let r2 := drawBlock cw x maxW r.2 ls
        (r.1 ++ r2.1, r2.2)

/-- A block of already-wrapped lines drawn top-down with a fixed step
(the per-column loops of src lines 318-335 and the meta value loops). -/
def linesBlock (mk : ℚ → Str → Instr) (lineH : ℚ) : ℚ → List Str → List Instr
  | _, [] => []
  | y, l :: ls => mk y l :: linesBlock mk lineH (y - lineH) ls

/-- One meta value (src lines 230-232 and 214-216): wrap against maxW, draw
each line at meta_x stepping 14, return instructions and the next y. -/
def metaVal (cw : Char → ℚ) (x maxW y : ℚ) (val : Str) : List Instr × ℚ :=
  let ls := wrap_lines cw maxW val
  (linesBlock (fun yy l => Instr.text x yy l) 14 y ls, y - 14 * ls.length)

/-- The label/value meta loop (src lines 227-232): label, y -= 12, value
lines stepping 14. -/
def metaLoop (cw : Char → ℚ) (x maxW : ℚ) : ℚ → List (Str × Str) → List Instr × ℚ
  | y, [] => ([], y)
  | y, (lbl, val) :: rest =>
      let v := metaVal cw x maxW (y - 12) val
      let r := metaLoop cw x maxW v.2 rest
      (Instr.text x y lbl :: (v.1 ++ r.1), r.2)

/-- The effective seller block (src lines 192-197; this later list shadows
the one at lines 139-144). -/
def sellerLines (d : InvoiceData) : List Str :=
  [d.seller_name, d.seller_address, d.seller_phone, d.seller_email]

/-- The effective buyer block (src lines 241-246). -/
def buyerLines (d : InvoiceData) : List Str :=
  [d.buyer_name, d.buyer_address, d.buyer_phone, d.buyer_email]

/-- The meta label/value pairs actually drawn (src lines 221-226). -/
def metaFields (d : InvoiceData) : List (Str × Str) :=
  [("請求日 / Date".toList, d.date),
   ("支払期日 / Due Date".toList, d.due_date),
   ("通貨 / Currency".toList, effCurrency d.currency),
   ("税率 / Tax Rate".toList, formatFixed false 0 (d.tax_rate * 100) ++ ['%'])]

/-- Section header string "明細 / Items". -/
def itemsHdr : Str := "明細 / Items".toList

/-- Header phase of generate_invoice_pdf (src lines 128-258): title, logo,
From/Invoice-No labels, seller column, meta column, Bill-To block; returns
the instructions and table_top. -/
def headerPhase (ctx : Ctx) (d : InvoiceData) : List Instr × ℚ :=
  let y_top := pageH - margin_y - 12 * mm
  let col_split_x := margin_x + 90 * mm
  let meta_x := col_split_x + 6 * mm
  let logoInstrs : List Instr :=
    if ctx.hasLogo then
      [Instr.image (pageW - margin_x - 24 * mm) (pageH - margin_y - 24 * mm) (24 * mm) (24 * mm)]
    else []
  let logo_bottom_y := if ctx.hasLogo then pageH - margin_y - 24 * mm else y_top
  let one_char_w := ctx.cw 10 'あ'
  let seller_max_w := max (40 * mm) ((col_split_x - margin_x) - one_char_w)
  let seller := drawBlock (ctx.cw 10) margin_x seller_max_w (y_top - 16) (sellerLines d)
  let meta_max_w := (pageW - margin_x) - meta_x
  let invBlock : List Instr × ℚ :=
    if d.invoice_no = [] then ([], y_top - 16)
    else
      let v := metaVal (ctx.cw 10) meta_x meta_max_w (y_top - 16) d.invoice_no
      (Instr.setFont 10 :: v.1, v.2 - 2)
  let metas := metaLoop (ctx.cw 10) meta_x meta_max_w invBlock.2 (metaFields d)
  let y_left := seller.2
  let y_right := metas.2
  let y_bt0 := min (min y_left y_right) logo_bottom_y - 10 * mm
  let buyer_max_w := (col_split_x - margin_x) - one_char_w
  let buyer := drawBlock (ctx.cw 10) margin_x buyer_max_w (y_bt0 - 16) (buyerLines d)
  let table_top := min (min buyer.2 y_left) y_right - 8 * mm
  ([Instr.setFont 18, Instr.text margin_x (pageH - margin_y) d.title, Instr.setFont 10]
     ++ logoInstrs
     ++ [Instr.setFont 11, Instr.text margin_x y_top ("請求元 / From".toList),
         Instr.text meta_x y_top ("請求書番号 / Invoice No.".toList)]
     ++ seller.1
     ++ invBlock.1 ++ [Instr.setFont 10] ++ metas.1
     ++ [Instr.setFont 11, Instr.text margin_x y_bt0 ("請求先 / Bill To".toList)]
     ++ buyer.1
     ++ [Instr.setFont 11, Instr.text margin_x table_top itemsHdr],
   table_top)

/-- Table header (src lines 260-269): column headers at header_y, the rule
4 below, and the initial row cursor header_y - 18. -/
def tableHeaderPhase (table_top : ℚ) : List Instr × ℚ :=
  let header_y := table_top - 16
  ([Instr.setFont 10,
    Instr.text colx0 header_y ("内容 / Description".toList),
    Instr.text colx1 header_y ("数量 / Qty".toList),
    Instr.text colx2 header_y ("単価 / Unit".toList),
    Instr.text colx3 header_y ("小計 / Subtotal".toList),
    Instr.hline margin_x (header_y - 4) (pageW - margin_x) (header_y - 4)],
   header_y - 18)

/-! ### Tax aggregation -/

/-- Effective tax rate (src line 295): the per-item override when present,
else the invoice's default rate. -/
def effRate (dr : ℚ) (it : Item) : ℚ := it.taxv.getD dr

/-- An item's subtotal qty * unit (src line 294). -/
def itemSub (it : Item) : ℚ := it.qty * it.unit

/-- subtotal_by_rate[rate] += sub on an insertion-ordered association list
(the Python defaultdict(float) of src lines 284, 296). -/
def bumpBucket : List (ℚ × ℚ) → ℚ → ℚ → List (ℚ × ℚ)
  | [], r, v => [(r, v)]
  | (a, b) :: rest, r, v =>
      if a = r then (a, b + v) :: rest else (a, b) :: bumpBucket rest r v

/-- Bucket lookup (0 for an absent key, matching defaultdict(float)). -/
def lookupBucket : List (ℚ × ℚ) → ℚ → ℚ
  | [], _ => 0
  | (a, b) :: rest, r => if a = r then b else lookupBucket rest r

/-- The bucket map built by the item loop (src lines 287-296). -/
def subtotal_by_rate (dr : ℚ) (items : List Item) : List (ℚ × ℚ) :=
  items.foldl (fun bs it => bumpBucket bs (effRate dr it) (itemSub it)) []

/-- Descending insertion of one key (Python sorted(..., reverse=True)). -/
def insertDesc (x : ℚ) : List ℚ → List ℚ
  | [] => [x]
  | y :: ys => if y ≤ x then x :: y :: ys else y :: insertDesc x ys

/-- Descending insertion sort of the bucket keys (src line 348). -/
def sortDesc : List ℚ → List ℚ
  | [] => []
  | x :: xs => insertDesc x (sortDesc xs)

/-- sorted(subtotal_by_rate.keys(), reverse=True). -/
def sortedRates (bs : List (ℚ × ℚ)) : List ℚ := sortDesc (bs.map Prod.fst)

/-! ### Item-table phase -/

/-- desc_lines (src line 300). -/
def desc_lines (ctx : Ctx) (it : Item) : List Str :=
  wrap_lines (ctx.cw 10) w_desc it.desc

/-- qty_lines (src line 301): wraps str(qty). -/
def qty_lines (ctx : Ctx) (it : Item) : List Str :=
  wrap_lines_right (ctx.cw 10) w_qty (ctx.pyStr it.qty)

/-- unit_lines (src line 302): wraps money(float(unit)). -/
def unit_lines (ctx : Ctx) (mny : ℚ → Str) (it : Item) : List Str :=
  wrap_lines_right (ctx.cw 10) w_unit (mny it.unit)

/-- sub_lines (src line 303): wraps money(qty * unit). -/
def sub_lines (ctx : Ctx) (mny : ℚ → Str) (it : Item) : List Str :=
  wrap_lines_right (ctx.cw 10) w_sub (mny (itemSub it))

/-- max_lines (src line 305): the tallest of the four wrapped cells. -/
def max_lines (ctx : Ctx) (mny : ℚ → Str) (it : Item) : ℕ :=
  max (max (max (desc_lines ctx it).length (qty_lines ctx it).length)
        (unit_lines ctx mny it).length)
    (sub_lines ctx mny it).length

/-- row_height = max_lines * line_h (src line 306). -/
def row_height (ctx : Ctx) (mny : ℚ → Str) (it : Item) : ℚ :=
  (max_lines ctx mny it : ℚ) * line_h

/-- The four column draw loops of one row (src lines 317-335): description
left-aligned, the other three right-aligned, all starting at the row top. -/
def rowDraw (ctx : Ctx) (mny : ℚ → Str) (y : ℚ) (it : Item) : List Instr :=
  linesBlock (fun yy l => Instr.text (colx0 + pad_l) yy l) line_h y (desc_lines ctx it)
    ++ linesBlock (fun yy l => Instr.rtext (colx2 - pad_r) yy l) line_h y (qty_lines ctx it)
    ++ linesBlock (fun yy l => Instr.rtext (colx3 - pad_r) yy l) line_h y (unit_lines ctx mny it)
    ++ linesBlock (fun yy l => Instr.rtext (colx4 - pad_r) yy l) line_h y (sub_lines ctx mny it)

/-- The instructions emitted on a table page break (src lines 309-314):
showPage, then the Items section header redrawn near the new page's top. -/
def pageBreakBlock : List Instr :=
  [Instr.newPage, Instr.setFont 11,
   Instr.text margin_x (pageH - margin_y - 12 * mm) itemsHdr, Instr.setFont 10]

/-- One iteration of the item loop (src lines 287-337): accumulate the tax
bucket, wrap the four cells, break the page if the row would cross the 40 mm
threshold, draw the row, advance the cursor by row_height. -/
def tableStep (ctx : Ctx) (mny : ℚ → Str) (dr : ℚ) (st : ℚ × List (ℚ × ℚ)) (it : Item) :
    (ℚ × List (ℚ × ℚ)) × List Instr :=
  let bs := bumpBucket st.2 (effRate dr it) (itemSub it)
  let rh := row_height ctx mny it
  if st.1 - rh < 40 * mm then
    ((resetRowY - rh, bs), Instr.setFont 10 :: (pageBreakBlock ++ rowDraw ctx mny resetRowY it))
  else
    ((st.1 - rh, bs), Instr.setFont 10 :: rowDraw ctx mny st.1 it)

/-- The full item loop, threading (row_y, buckets). -/
def itemsLoop (ctx : Ctx) (mny : ℚ → Str) (dr : ℚ) :
    ℚ × List (ℚ × ℚ) → List Item → (ℚ × List (ℚ × ℚ)) × List Instr
  | st, [] => (st, [])
  | st, it :: rest =>
      let r1 := tableStep ctx mny dr st it
      let r2 := itemsLoop ctx mny dr r1.1 rest
      (r2.1, r1.2 ++ r2.2)

/-! ### Totals phase -/

/-- Right anchor of the totals labels (src line 340). -/
def totals_x_label : ℚ := colx3 - 30 * mm

/-- Right anchor of the totals values (src line 341). -/
def totals_x_val : ℚ := colx4 - 4

/-- f"対象小計（{int(rate*100)}%）" (src line 353). -/
def subAtRateLbl (r : ℚ) : Str :=
  "対象小計（".toList ++ intChars (pyInt (r * 100)) ++ "%）".toList

/-- f"消費税（{int(rate*100)}%）" (src line 356). -/
def taxAtRateLbl (r : ℚ) : Str :=
  "消費税（".toList ++ intChars (pyInt (r * 100)) ++ "%）".toList

/-- The per-rate totals loop (src lines 348-358): for each rate in descending
order draw the subtotal-at-rate and tax-at-rate line pair 14 apart and add
into the running sums; returns (instructions, final row_y, total_sub,
total_tax). -/
def totalsLoop (mny : ℚ → Str) (bs : List (ℚ × ℚ)) : ℚ → List ℚ → List Instr × ℚ × ℚ × ℚ
  | y, [] => ([], y, 0, 0)
  | y, r :: rs =>
      let sub := lookupBucket bs r
      let tax := sub * r
      let rest := totalsLoop mny bs (y - 28) rs
      (Instr.rtext totals_x_label y (subAtRateLbl r) ::
         Instr.rtext totals_x_val y (mny sub) ::
         Instr.rtext totals_x_label (y - 14) (taxAtRateLbl r) ::
         Instr.rtext totals_x_val (y - 14) (mny tax) :: rest.1,
       rest.2.1, sub + rest.2.2.1, tax + rest.2.2.2)

/-- Totals phase (src lines 339-368): rule, per-rate pairs, rule, subtotal
line, total line in size 12; returns the instructions and the final row_y.
No overflow check appears anywhere in this phase. -/
def totalsPhase (mny : ℚ → Str) (y0 : ℚ) (bs : List (ℚ × ℚ)) : List Instr × ℚ :=
  let y1 := y0 - 6
  let lp := totalsLoop mny bs (y1 - 18) (sortedRates bs)
  let yAfter := lp.2.1
  let total_sub := lp.2.2.1
  let total_tax := lp.2.2.2
  (Instr.hline margin_x y1 (pageW - margin_x) y1 ::
     (lp.1 ++
       [Instr.hline margin_x yAfter (pageW - margin_x) yAfter,
        Instr.rtext totals_x_label (yAfter - 18) ("小計 / Subtotal".toList),
        Instr.rtext totals_x_val (yAfter - 18) (mny total_sub),
        Instr.setFont 12,
        Instr.rtext totals_x_label (yAfter - 32) ("合計 / Total".toList),
        Instr.rtext totals_x_val (yAfter - 32) (mny (total_sub + total_tax))]),
   yAfter - 32)

/-! ### Note phase and finalization -/

/-- The note line loop (src lines 375-381): page-break to a bare new page
when the cursor is below 24 mm, then draw the line and step 12. -/
def noteLoop : ℚ → List Str → List Instr
  | _, [] => []
  | y, ln :: rest =>
      if y < 24 * mm then
        Instr.newPage :: Instr.setFont 9 ::
          Instr.text margin_x (pageH - margin_y) ln ::
          noteLoop (pageH - margin_y - 12) rest
      else Instr.text margin_x y ln :: noteLoop (y - 12) rest

/-- Note phase (src lines 371-381): size 9, wrap against the full content
width, then the line loop. -/
def notePhase (cw9 : Char → ℚ) (y0 : ℚ) (note : Str) : List Instr :=
  Instr.setFont 9 :: noteLoop y0 (wrap_lines cw9 (pageW - 2 * margin_x) note)

/-- generate_invoice_pdf (src lines 115-390) as a draw-instruction stream:
header, table header, item loop, totals, note, and the final explicit
showPage (src line 384). -/
def generate_invoice_pdf (ctx : Ctx) (d : InvoiceData) : List Instr :=
  let mny := money (effCurrency d.currency)
  let hdr := headerPhase ctx d
  let th := tableHeaderPhase hdr.2
  let rows := itemsLoop ctx mny d.tax_rate (th.2, []) d.items
  let tot := totalsPhase mny rows.1.1 rows.1.2
  hdr.1 ++ th.1 ++ rows.2 ++ tot.1
    ++ notePhase (ctx.cw 9) (tot.2 - 22) d.note
    ++ [Instr.newPage]

/-! ### Batch CSV item-cell parsing (generate_batch, src lines 577-599) -/

/-- Python str.strip(): drop unicode whitespace from both ends. -/
def trim (s : Str) : Str :=
  ((s.dropWhile Char.isWhitespace).reverse.dropWhile Char.isWhitespace).reverse

/-- Python str.split(sep) for a single-character separator: split on every
occurrence, keeping empty pieces. -/
def splitOnCh (sep : Char) : Str → List Str
  | [] => [[]]
  | ch :: rest =>
      let r := splitOnCh sep rest
      if ch = sep then [] :: r
      else
        match r with
        | [] => [[ch]]
        | g :: gs => (ch :: g) :: gs

/-- The qty/unit try-block (src lines 594-598): both parses must succeed in
one try; if either float() raises ValueError, BOTH become 0.0 — including
the one that would have parsed.  pf is Python's float() parser, none on
ValueError. -/
def parseQU (pf : Str → Option ℚ) (qty unit : Str) : ℚ × ℚ :=
  match pf qty, pf unit with
  | some q, some u => (q, u)
  | _, _ => (0, 0)

/-- One semicolon-separated part of an items cell (src lines 582-599): strip,
skip if empty, split on "|" and strip each segment; with fewer than three
segments produce nothing; otherwise take desc/qty/unit, parse the optional
fourth segment as the tax override (parse failure, like absence, yields
none), and parse qty then unit via parseQU. -/
def parsePart (pf : Str → Option ℚ) (part0 : Str) : List Item :=
  let part := trim part0
  if part = [] then []
  else
    let segs := (splitOnCh '|' part).map trim
    if 3 ≤ segs.length then
      let taxv : Option ℚ :=
        if 4 ≤ segs.length ∧ segs.getD 3 [] ≠ [] then pf (segs.getD 3 []) else none
      let qu : ℚ × ℚ := parseQU pf (segs.getD 1 []) (segs.getD 2 [])
      [⟨segs.getD 0 [], qu.1, qu.2, taxv⟩]
    else []

/-- The whole items cell (src lines 580-599): nothing when the cell is empty,
else every semicolon-separated part in order. -/
def parseItemsCell (pf : Str → Option ℚ) (raw : Str) : List Item :=
  if raw = [] then [] else ((splitOnCh ';' raw).map (parsePart pf)).flatten

/-! ## Wrapping lemmas (claims C3, C4) -/

/-- Concatenating the lines produced by the wrap loop reproduces the pending
accumulator followed by the remaining input. -/
theorem wrapLoop_flatten (cw : Char → ℚ) (w : ℚ) :
    ∀ (s cur : Str), (wrapLoop cw w cur s).flatten = cur ++ s := by
  intro s
  induction s with
  | nil =>
      intro cur
      by_cases h : cur = [] <;> simp [wrapLoop, h]
  | cons ch rest ih =>
      intro cur
      simp only [wrapLoop]
      split
      · rw [ih]
        simp
      · simp [ih]

/-- Every line emitted by the wrap loop either fits or is a single character,
provided the pending accumulator does. -/
theorem wrapLoop_width (cw : Char → ℚ) (w : ℚ) :
    ∀ (s cur : Str), (stringWidth cw cur ≤ w ∨ cur.length ≤ 1) →
      ∀ l ∈ wrapLoop cw w cur s, stringWidth cw l ≤ w ∨ l.length ≤ 1 := by
  intro s
  induction s with
  | nil =>
      intro cur hcur l hl
      by_cases h : cur = []
      · simp [wrapLoop, h] at hl
      · simp only [wrapLoop, if_neg h, List.mem_singleton] at hl
        subst hl
        exact hcur
  | cons ch rest ih =>
      intro cur hcur l hl
      simp only [wrapLoop] at hl
      split at hl
      · exact ih _ (Or.inl (by assumption)) l hl
      · rcases List.mem_cons.mp hl with rfl | hl'
        · exact hcur
        · exact ih [ch] (Or.inr (by simp)) l hl'

/-- Claim C3: for every string s and width w > 0, wrap_lines returns a
non-empty sequence of lines whose concatenation is exactly s; every line's
measured width is at most w except a line consisting of a single character
whose own width exceeds w; and wrapping the empty string yields exactly
[""]. -/
theorem wrap_lines_contract (cw : Char → ℚ) (w : ℚ) (s : Str) (hw : 0 < w) :
    wrap_lines cw w s ≠ [] ∧
    (wrap_lines cw w s).flatten = s ∧
    (∀ l ∈ wrap_lines cw w s,
        stringWidth cw l ≤ w ∨ (l.length = 1 ∧ w < stringWidth cw l)) ∧
    wrap_lines cw w [] = [[]] := by
  refine ⟨?_, ?_, ?_, by simp [wrap_lines, wrapLoop]⟩
  · unfold wrap_lines
    split <;> simp_all
  · unfold wrap_lines
    split
    · rename_i h
      have hj := wrapLoop_flatten cw w s []
      rw [h] at hj
      simp only [List.flatten_nil, List.nil_append] at hj
      simp [← hj]
    · simpa using wrapLoop_flatten cw w s []
  · intro l hl
    have hmem : l = [] ∨ l ∈ wrapLoop cw w [] s := by
      unfold wrap_lines at hl
      split at hl
      · simp at hl
        exact Or.inl hl
      · exact Or.inr hl
    have hbase : stringWidth cw l ≤ w ∨ l.length ≤ 1 := by
      rcases hmem with rfl | hmem'
      · left
        simp [stringWidth]
        exact hw.le
      · exact wrapLoop_width cw w s [] (Or.inr (by simp)) l hmem'
    by_cases hfit : stringWidth cw l ≤ w
    · exact Or.inl hfit
    · right
      have hlen : l.length ≤ 1 := hbase.resolve_left hfit
      have hne : l ≠ [] := by
        intro hnil
        apply hfit
        rw [hnil]
        simpa [stringWidth] using hw.le
      have : l.length = 1 := by
        have := List.length_pos.mpr hne
        omega
      exact ⟨this, lt_of_not_le hfit⟩

/-- Witness for the wrap contract at cw = const 1, w = 2, s = "abc". -/
theorem wrap_lines_contract_witness :
    (wrap_lines (fun _ => (1 : ℚ)) 2 ("abc".toList)).flatten = "abc".toList ∧
    wrap_lines (fun _ => (1 : ℚ)) 2 [] = [[]] :=
  ⟨(wrap_lines_contract (fun _ => (1 : ℚ)) 2 ("abc".toList) (by norm_num)).2.1,
   (wrap_lines_contract (fun _ => (1 : ℚ)) 2 ("abc".toList) (by norm_num)).2.2.2⟩

/-- A width table sending every character to width 5. -/
def cwFive : Char → ℚ := fun _ => 5

/-- Claim C4 counterexample: a single character whose own width (5) exceeds
maxWidth (3) wraps to TWO lines — a leading empty line followed by the
character — not to exactly one line containing the character. -/
theorem wrap_single_overwide_cex :
    3 < stringWidth cwFive ['a'] ∧
    wrap_lines cwFive 3 ['a'] = [[], ['a']] ∧
    (wrap_lines cwFive 3 ['a']).length ≠ 1 := by
  have h0 : wrapLoop cwFive 3 [] ['a'] = [[], ['a']] := by
    norm_num [wrapLoop, stringWidth, cwFive]
  have h1 : wrap_lines cwFive 3 ['a'] = [[], ['a']] := by
    unfold wrap_lines
    rw [h0]
    simp
  refine ⟨by norm_num [stringWidth, cwFive], h1, by rw [h1]; decide⟩

/-- Claim C4 amended: when a candidate does not fit, the current accumulator
(even when it is empty) is emitted as a completed line and a new accumulator
starts containing just the current character; hence a single character whose
own width exceeds maxWidth wraps, unbroken and without error, to an empty
line followed by the line holding exactly that character. -/
theorem wrap_single_overwide (cw : Char → ℚ) (w : ℚ) (c : Char)
    (h : w < stringWidth cw [c]) :
    wrap_lines cw w [c] = [[], [c]] ∧
    ∀ (cur rest : Str), w < stringWidth cw (cur ++ [c]) →
      wrapLoop cw w cur (c :: rest) = cur :: wrapLoop cw w [c] rest := by
  constructor
  · unfold wrap_lines
    have h1 : wrapLoop cw w [] [c] = [[], [c]] := by
      simp only [wrapLoop, List.nil_append]
      rw [if_neg (not_le.mpr h)]
      simp [wrapLoop]
    rw [h1]
    simp
  · intro cur rest hcr
    simp only [wrapLoop]
    rw [if_neg (not_le.mpr hcr)]

/-- Witness for the amended C4 statement at cwFive, w = 3, c = 'b'. -/
theorem wrap_single_overwide_witness :
    wrap_lines cwFive 3 ['b'] = [[], ['b']] :=
  (wrap_single_overwide cwFive 3 'b' (by norm_num [stringWidth, cwFive])).1

/-! ## Tax aggregation lemmas (claim C1) -/

/-- Bumping one bucket adds v to exactly the bumped key. -/
theorem lookupBucket_bump (bs : List (ℚ × ℚ)) (r v r' : ℚ) :
    lookupBucket (bumpBucket bs r v) r' =
      lookupBucket bs r' + (if r = r' then v else 0) := by
  induction bs with
  | nil =>
      by_cases h : r = r' <;> simp [bumpBucket, lookupBucket, h]
  | cons p rest ih =>
      obtain ⟨a, b⟩ := p
      simp only [bumpBucket]
      by_cases har : a = r
      · subst har
        simp only [if_pos rfl, lookupBucket]
        by_cases h : a = r' <;> simp [h]
      · rw [if_neg har]
        simp only [lookupBucket]
        by_cases h : a = r'
        · have hrr : ¬r = r' := fun hh => har (by rw [h, hh])
          simp [h, hrr]
        · simp [h, ih]

/-- Keys after a bump: unchanged when the key is present, appended when it
is new. -/
theorem keys_bump (bs : List (ℚ × ℚ)) (r v : ℚ) :
    (bumpBucket bs r v).map Prod.fst =
      if r ∈ bs.map Prod.fst then bs.map Prod.fst else bs.map Prod.fst ++ [r] := by
  induction bs with
  | nil => simp [bumpBucket]
  | cons p rest ih =>
      obtain ⟨a, b⟩ := p
      by_cases har : a = r
      · subst har
        simp [bumpBucket]
      · by_cases hm : r ∈ rest.map Prod.fst <;>
          simp [bumpBucket, har, ih, hm, Ne.symm har]

/-- A bump preserves distinctness of the bucket keys. -/
theorem nodup_keys_bump (bs : List (ℚ × ℚ)) (r v : ℚ)
    (h : (bs.map Prod.fst).Nodup) :
    ((bumpBucket bs r v).map Prod.fst).Nodup := by
  rw [keys_bump]
  split
  · exact h
  · rename_i hmem
    simp [List.nodup_append, h, hmem]

/-- Key membership after a bump. -/
theorem mem_keys_bump (bs : List (ℚ × ℚ)) (r v r' : ℚ) :
    r' ∈ (bumpBucket bs r v).map Prod.fst ↔ r' ∈ bs.map Prod.fst ∨ r' = r := by
  rw [keys_bump]
  split
  · rename_i hm
    constructor
    · exact Or.inl
    · rintro (h | rfl)
      · exact h
      · exact hm
  · simp

/-- The bucket fold: each key holds the sum of the subtotals of the items
whose effective rate is that key, on top of the starting buckets. -/
theorem lookupBucket_foldl (dr : ℚ) (l : List Item) :
    ∀ (bs : List (ℚ × ℚ)) (r : ℚ),
      lookupBucket (l.foldl (fun bs it => bumpBucket bs (effRate dr it) (itemSub it)) bs) r =
        lookupBucket bs r +
          (l.map (fun it => if effRate dr it = r then itemSub it else 0)).sum := by
  induction l with
  | nil => simp
  | cons it rest ih =>
      intro bs r
      simp only [List.foldl_cons, List.map_cons, List.sum_cons]
      rw [ih, lookupBucket_bump]
      ring

/-- The bucket fold keeps the keys distinct. -/
theorem nodup_keys_foldl (dr : ℚ) (l : List Item) :
    ∀ bs, (bs.map Prod.fst).Nodup →
      ((l.foldl (fun bs it => bumpBucket bs (effRate dr it) (itemSub it)) bs).map
          Prod.fst).Nodup := by
  induction l with
  | nil => intro bs h; simpa using h
  | cons it rest ih =>
      intro bs h
      exact ih _ (nodup_keys_bump _ _ _ h)

/-- The bucket fold never loses a key. -/
theorem mem_keys_foldl_mono (dr : ℚ) (l : List Item) :
    ∀ bs r, r ∈ bs.map Prod.fst →
      r ∈ (l.foldl (fun bs it => bumpBucket bs (effRate dr it) (itemSub it)) bs).map
          Prod.fst := by
  induction l with
  | nil => intro bs r h; simpa using h
  | cons it rest ih =>
      intro bs r h
      exact ih _ r ((mem_keys_bump _ _ _ r).mpr (Or.inl h))

/-- Every processed item's effective rate ends up among the bucket keys. -/
theorem eff_mem_keys_foldl (dr : ℚ) (l : List Item) :
    ∀ bs it, it ∈ l →
      effRate dr it ∈
        (l.foldl (fun bs it => bumpBucket bs (effRate dr it) (itemSub it)) bs).map
          Prod.fst := by
  induction l with
  | nil => intro bs it h; cases h
  | cons it0 rest ih =>
      intro bs it h
      rcases List.mem_cons.mp h with rfl | h'
      · exact mem_keys_foldl_mono dr rest _ _ ((mem_keys_bump _ _ _ _).mpr (Or.inr rfl))
      · exact ih _ it h'

/-- Summing a one-point indicator over keys not containing the point. -/
theorem sum_ite_not_mem (x c : ℚ) (ks : List ℚ) (h : x ∉ ks) :
    (ks.map (fun r => if x = r then c else 0)).sum = 0 := by
  induction ks with
  | nil => simp
  | cons k rest ih =>
      have hxk : ¬x = k := fun hh => h (by rw [hh]; exact List.mem_cons_self k rest)
      have hx : x ∉ rest := fun hh => h (List.mem_cons_of_mem _ hh)
      simp [hxk, ih hx]

/-- Summing a one-point indicator over distinct keys containing the point. -/
theorem sum_ite_mem (x c : ℚ) (ks : List ℚ) (hk : ks.Nodup) (h : x ∈ ks) :
    (ks.map (fun r => if x = r then c else 0)).sum = c := by
  induction ks with
  | nil => cases h
  | cons k rest ih =>
      rw [List.map_cons, List.sum_cons]
      rcases List.mem_cons.mp h with rfl | hmem
      · rw [if_pos rfl, sum_ite_not_mem _ _ _ (List.nodup_cons.mp hk).1]
        ring
      · have hxk : ¬x = k := fun hh => (List.nodup_cons.mp hk).1 (hh ▸ hmem)
        rw [if_neg hxk, ih (List.nodup_cons.mp hk).2 hmem, zero_add]

/-- Pointwise sum of mapped sums splits. -/
theorem sum_map_add (ks : List ℚ) (f g : ℚ → ℚ) :
    (ks.map (fun r => f r + g r)).sum = (ks.map f).sum + (ks.map g).sum := by
  induction ks with
  | nil => simp
  | cons k rest ih => simp [ih]; ring

/-- Partitioning the item subtotals by effective rate and re-summing over any
distinct covering key list gives back the total of all subtotals. -/
theorem sum_fiberwise (dr : ℚ) (l : List Item) (ks : List ℚ) (hk : ks.Nodup)
    (hcov : ∀ it ∈ l, effRate dr it ∈ ks) :
    (ks.map (fun r =>
        (l.map (fun it => if effRate dr it = r then itemSub it else 0)).sum)).sum =
      (l.map itemSub).sum := by
  induction l with
  | nil => simp
  | cons it rest ih =>
      simp only [List.map_cons, List.sum_cons]
      have hsplit :
          (ks.map (fun r =>
              (if effRate dr it = r then itemSub it else 0) +
                (rest.map (fun it => if effRate dr it = r then itemSub it else 0)).sum)).sum =
            (ks.map (fun r => if effRate dr it = r then itemSub it else 0)).sum +
              (ks.map (fun r =>
                (rest.map (fun it => if effRate dr it = r then itemSub it else 0)).sum)).sum :=
        sum_map_add ks _ _
      rw [hsplit,
        sum_ite_mem _ _ ks hk (hcov it (List.mem_cons_self it rest)),
        ih (fun x hx => hcov x (List.mem_cons_of_mem _ hx))]

/-- insertDesc inserts: the result is a permutation of consing the element. -/
theorem insertDesc_perm (x : ℚ) (l : List ℚ) : (insertDesc x l).Perm (x :: l) := by
  induction l with
  | nil => exact List.Perm.refl _
  | cons y ys ih =>
      simp only [insertDesc]
      split
      · exact List.Perm.refl _
      · exact (List.Perm.cons y ih).trans (List.Perm.swap x y ys)

/-- sortDesc permutes its input. -/
theorem sortDesc_perm (l : List ℚ) : (sortDesc l).Perm l := by
  induction l with
  | nil => exact List.Perm.refl _
  | cons x xs ih => exact (insertDesc_perm x (sortDesc xs)).trans (List.Perm.cons x ih)

/-- Membership in insertDesc. -/
theorem mem_insertDesc {x z : ℚ} {l : List ℚ} :
    z ∈ insertDesc x l ↔ z = x ∨ z ∈ l := by
  rw [(insertDesc_perm x l).mem_iff]
  exact List.mem_cons

/-- insertDesc preserves descending sortedness. -/
theorem sorted_insertDesc (x : ℚ) (l : List ℚ) (h : l.Sorted (· ≥ ·)) :
    (insertDesc x l).Sorted (· ≥ ·) := by
  induction l with
  | nil => simp [insertDesc]
  | cons y ys ih =>
      rw [List.sorted_cons] at h
      simp only [insertDesc]
      split
      · rename_i hxy
        rw [List.sorted_cons]
        refine ⟨?_, List.sorted_cons.mpr h⟩
        intro b hb
        rcases List.mem_cons.mp hb with rfl | hb'
        · exact hxy
        · exact le_trans (h.1 b hb') hxy
      · rename_i hxy
        rw [List.sorted_cons]
        refine ⟨?_, ih h.2⟩
        intro b hb
        rcases mem_insertDesc.mp hb with rfl | hb'
        · exact le_of_not_le hxy
        · exact h.1 b hb'

/-- sortDesc sorts descendingly. -/
theorem sortDesc_sorted (l : List ℚ) : (sortDesc l).Sorted (· ≥ ·) := by
  induction l with
  | nil => simp [sortDesc]
  | cons x xs ih => exact sorted_insertDesc x (sortDesc xs) ih

/-- With distinct keys, the sorted rate list is strictly descending. -/
theorem sortedRates_pairwise_gt (bs : List (ℚ × ℚ))
    (h : (bs.map Prod.fst).Nodup) :
    (sortedRates bs).Pairwise (· > ·) := by
  have hs : (sortedRates bs).Pairwise (· ≥ ·) := sortDesc_sorted (bs.map Prod.fst)
  have hn : (sortedRates bs).Pairwise (· ≠ ·) :=
    ((sortDesc_perm (bs.map Prod.fst)).nodup_iff).mpr h
  exact (hs.and hn).imp fun hab => hab.1.lt_of_ne (Ne.symm hab.2)

/-- The running sums of the totals loop are the sums over the key list. -/
theorem totalsLoop_totals (mny : ℚ → Str) (bs : List (ℚ × ℚ)) :
    ∀ (y : ℚ) (ks : List ℚ),
      (totalsLoop mny bs y ks).2.2.1 = (ks.map (lookupBucket bs)).sum ∧
      (totalsLoop mny bs y ks).2.2.2 =
        (ks.map (fun r => lookupBucket bs r * r)).sum := by
  intro y ks
  induction ks generalizing y with
  | nil => simp [totalsLoop]
  | cons r rs ih =>
      have h1 := (ih (y - 28)).1
      have h2 := (ih (y - 28)).2
      simp [totalsLoop, h1, h2]

/-- The item loop accumulates the buckets exactly as subtotal_by_rate. -/
theorem itemsLoop_buckets (ctx : Ctx) (mny : ℚ → Str) (dr : ℚ) :
    ∀ (l : List Item) (st : ℚ × List (ℚ × ℚ)),
      (itemsLoop ctx mny dr st l).1.2 =
        l.foldl (fun bs it => bumpBucket bs (effRate dr it) (itemSub it)) st.2 := by
  intro l
  induction l with
  | nil => intro st; rfl
  | cons it rest ih =>
      intro st
      have hstep : (tableStep ctx mny dr st it).1.2 =
          bumpBucket st.2 (effRate dr it) (itemSub it) := by
        unfold tableStep
        dsimp only
        split <;> rfl
      simp only [itemsLoop, ih, hstep, List.foldl_cons]

/-- Claim C1: the aggregation assigns each item's subtotal qty × unit to the
bucket of its effective rate (override when present, else the default rate);
the totals loop then walks the buckets in strictly descending rate order and
its running sums satisfy totalSubtotal = Σ item subtotals and
totalTax = Σ bucket subtotal × rate. -/
theorem tax_aggregation_correct (ctx : Ctx) (mny : ℚ → Str) (dr : ℚ)
    (y yt : ℚ) (items : List Item) :
    (itemsLoop ctx mny dr (y, []) items).1.2 = subtotal_by_rate dr items ∧
    (∀ r, lookupBucket (subtotal_by_rate dr items) r =
        (items.map (fun it => if effRate dr it = r then itemSub it else 0)).sum) ∧
    (sortedRates (subtotal_by_rate dr items)).Pairwise (· > ·) ∧
    (totalsLoop mny (subtotal_by_rate dr items) yt
        (sortedRates (subtotal_by_rate dr items))).2.2.1 =
      (items.map itemSub).sum ∧
    (totalsLoop mny (subtotal_by_rate dr items) yt
        (sortedRates (subtotal_by_rate dr items))).2.2.2 =
      ((sortedRates (subtotal_by_rate dr items)).map
          (fun r => lookupBucket (subtotal_by_rate dr items) r * r)).sum := by
  have hnodup : ((subtotal_by_rate dr items).map Prod.fst).Nodup :=
    nodup_keys_foldl dr items [] (by simp)
  have hlookup : ∀ r, lookupBucket (subtotal_by_rate dr items) r =
      (items.map (fun it => if effRate dr it = r then itemSub it else 0)).sum := by
    intro r
    have := lookupBucket_foldl dr items [] r
    simpa [lookupBucket] using this
  have hksnodup : (sortedRates (subtotal_by_rate dr items)).Nodup :=
    ((sortDesc_perm _).nodup_iff).mpr hnodup
  have hcov : ∀ it ∈ items,
      effRate dr it ∈ sortedRates (subtotal_by_rate dr items) := by
    intro it hit
    have hmem : effRate dr it ∈ (subtotal_by_rate dr items).map Prod.fst :=
      eff_mem_keys_foldl dr items [] it hit
    exact (sortDesc_perm _).mem_iff.mpr hmem
  refine ⟨itemsLoop_buckets ctx mny dr items (y, []), hlookup,
    sortedRates_pairwise_gt _ hnodup, ?_, (totalsLoop_totals mny _ yt _).2⟩
  rw [(totalsLoop_totals mny _ yt _).1]
  rw [List.map_congr_left (fun r _ => hlookup r)]
  exact sum_fiberwise dr items _ hksnodup hcov

/-! ## Pagination and row-height lemmas (claims C2, C5) -/

/-- Every instruction of a linesBlock is the maker applied at one of the
stepped y positions. -/
theorem linesBlock_shape (mk : ℚ → Str → Instr) (lineH : ℚ) :
    ∀ (ls : List Str) (y : ℚ), ∀ i ∈ linesBlock mk lineH y ls,
      ∃ k : ℕ, k < ls.length ∧ ∃ l, i = mk (y - lineH * k) l := by
  intro ls
  induction ls with
  | nil => intro y i h; cases h
  | cons l0 rest ih =>
      intro y i h
      rcases List.mem_cons.mp h with rfl | h'
      · exact ⟨0, by simp, l0, by norm_num⟩
      · obtain ⟨k, hk, l, hl⟩ := ih (y - lineH) i h'
        refine ⟨k + 1, by simpa using Nat.succ_lt_succ hk, l, ?_⟩
        rw [hl]
        congr 1
        push_cast
        ring

/-- A linesBlock whose maker is not newPage contains no page break. -/
theorem newPage_not_mem_linesBlock (mk : ℚ → Str → Instr) (lineH : ℚ)
    (hmk : ∀ yy l, mk yy l ≠ Instr.newPage) :
    ∀ (ls : List Str) (y : ℚ), Instr.newPage ∉ linesBlock mk lineH y ls := by
  intro ls
  induction ls with
  | nil => intro y h; cases h
  | cons l0 rest ih =>
      intro y h
      rcases List.mem_cons.mp h with h0 | h'
      · exact hmk _ _ h0.symm
      · exact ih _ h'

/-- A row's draw block contains no page break. -/
theorem newPage_not_mem_rowDraw (ctx : Ctx) (mny : ℚ → Str) (y : ℚ) (it : Item) :
    Instr.newPage ∉ rowDraw ctx mny y it := by
  unfold rowDraw
  simp only [List.mem_append, not_or]
  exact ⟨⟨⟨newPage_not_mem_linesBlock _ _ (fun yy l => by simp) _ _,
      newPage_not_mem_linesBlock _ _ (fun yy l => by simp) _ _⟩,
    newPage_not_mem_linesBlock _ _ (fun yy l => by simp) _ _⟩,
    newPage_not_mem_linesBlock _ _ (fun yy l => by simp) _ _⟩

/-- Claim C2: before an item's row is drawn, if the cursor minus the row
height would cross the 40 mm bottom threshold, exactly one page break is
emitted at that item boundary — showPage, the Items header redrawn at the
fixed offset 12 mm below the top margin, the cursor reset to the fixed
offset 40 mm below the top margin — and otherwise no break is emitted; in
both cases the row's own wrapped lines contain no page break, so one item's
lines are never split across two pages. -/
theorem table_page_break (ctx : Ctx) (mny : ℚ → Str) (dr : ℚ) (y : ℚ)
    (bs : List (ℚ × ℚ)) (it : Item) :
    (y - row_height ctx mny it < 40 * mm →
      tableStep ctx mny dr (y, bs) it =
        ((resetRowY - row_height ctx mny it,
          bumpBucket bs (effRate dr it) (itemSub it)),
         Instr.setFont 10 :: (pageBreakBlock ++ rowDraw ctx mny resetRowY it)) ∧
      (Instr.setFont 10 ::
          (pageBreakBlock ++ rowDraw ctx mny resetRowY it)).count Instr.newPage = 1) ∧
    (¬(y - row_height ctx mny it < 40 * mm) →
      tableStep ctx mny dr (y, bs) it =
        ((y - row_height ctx mny it,
          bumpBucket bs (effRate dr it) (itemSub it)),
         Instr.setFont 10 :: rowDraw ctx mny y it) ∧
      (Instr.setFont 10 :: rowDraw ctx mny y it).count Instr.newPage = 0) ∧
    Instr.newPage ∉ rowDraw ctx mny resetRowY it ∧
    Instr.newPage ∉ rowDraw ctx mny y it := by
  have hcntBrk : (pageBreakBlock).count Instr.newPage = 1 := by decide
  have hcnt0 : ∀ y', (rowDraw ctx mny y' it).count Instr.newPage = 0 := fun y' =>
    List.count_eq_zero.mpr (newPage_not_mem_rowDraw ctx mny y' it)
  refine ⟨?_, ?_, newPage_not_mem_rowDraw ctx mny resetRowY it,
    newPage_not_mem_rowDraw ctx mny y it⟩
  · intro h
    refine ⟨by unfold tableStep; dsimp only; rw [if_pos h], ?_⟩
    rw [List.count_cons, List.count_append, hcntBrk, hcnt0]
    simp
  · intro h
    refine ⟨by unfold tableStep; dsimp only; rw [if_neg h], ?_⟩
    rw [List.count_cons, hcnt0]
    simp

/-- All instructions of a linesBlock of at most n lines lie strictly within
the span (y - lineH * n, y]. -/
theorem linesBlock_span (lineH : ℚ) (hpos : 0 < lineH) (mk : ℚ → Str → Instr)
    (hmk : ∀ yy l, yCoord (mk yy l) = yy) (n : ℕ) (ls : List Str) (y : ℚ)
    (hn : ls.length ≤ n) :
    ∀ i ∈ linesBlock mk lineH y ls, y - lineH * n < yCoord i ∧ yCoord i ≤ y := by
  intro i hi
  obtain ⟨k, hk, l, rfl⟩ := linesBlock_shape mk lineH ls y i hi
  rw [hmk]
  have hkn : (k : ℚ) < (n : ℚ) := by
    exact_mod_cast lt_of_lt_of_le hk hn
  have hk0 : (0 : ℚ) ≤ (k : ℚ) := by positivity
  constructor
  · have : lineH * (k : ℚ) < lineH * (n : ℚ) := by
      exact mul_lt_mul_of_pos_left hkn hpos
    linarith
  · nlinarith

/-- Claim C5: an item's row height is the fixed line height times the
maximum of the four wrapped line counts; the cursor advances by exactly that
amount; every drawn line of the row lies within the row's vertical span; and
a description of 3 wrapped lines with the three numeric cells at 1 line each
gives a row height of 3 × line_h. -/
theorem row_height_spec (ctx : Ctx) (mny : ℚ → Str) (dr : ℚ) (y : ℚ)
    (bs : List (ℚ × ℚ)) (it : Item) :
    row_height ctx mny it = (max_lines ctx mny it : ℚ) * line_h ∧
    (¬(y - row_height ctx mny it < 40 * mm) →
      (tableStep ctx mny dr (y, bs) it).1.1 =
        y - (max_lines ctx mny it : ℚ) * line_h) ∧
    (∀ i ∈ rowDraw ctx mny y it,
        y - row_height ctx mny it < yCoord i ∧ yCoord i ≤ y) ∧
    ((desc_lines ctx it).length = 3 → (qty_lines ctx it).length = 1 →
      (unit_lines ctx mny it).length = 1 → (sub_lines ctx mny it).length = 1 →
      row_height ctx mny it = 3 * line_h) := by
  have hlh : (0 : ℚ) < line_h := by norm_num [line_h]
  refine ⟨rfl, ?_, ?_, ?_⟩
  · intro h
    unfold tableStep
    dsimp only
    rw [if_neg h]
    rfl
  · intro i hi
    have hrh : row_height ctx mny it = line_h * (max_lines ctx mny it : ℚ) := by
      rw [mul_comm]; rfl
    rw [hrh]
    unfold rowDraw at hi
    rcases List.mem_append.mp hi with hi' | h4
    · rcases List.mem_append.mp hi' with hi'' | h3
      · rcases List.mem_append.mp hi'' with h1 | h2
        · exact linesBlock_span line_h hlh
            (fun yy l => Instr.text (colx0 + pad_l) yy l) (fun yy l => rfl)
            (max_lines ctx mny it) _ y (by unfold max_lines; omega) i h1
        · exact linesBlock_span line_h hlh
            (fun yy l => Instr.rtext (colx2 - pad_r) yy l) (fun yy l => rfl)
            (max_lines ctx mny it) _ y (by unfold max_lines; omega) i h2
      · exact linesBlock_span line_h hlh
          (fun yy l => Instr.rtext (colx3 - pad_r) yy l) (fun yy l => rfl)
          (max_lines ctx mny it) _ y (by unfold max_lines; omega) i h3
    · exact linesBlock_span line_h hlh
        (fun yy l => Instr.rtext (colx4 - pad_r) yy l) (fun yy l => rfl)
        (max_lines ctx mny it) _ y (by unfold max_lines; omega) i h4
  · intro h1 h2 h3 h4
    unfold row_height max_lines
    rw [h1, h2, h3, h4]
    norm_num

/-- A context whose measurer gives every character width 1 and whose number
renderer always yields "1". -/
def ctxUnit : Ctx := ⟨fun _ _ => 1, fun _ => ['1'], false⟩

/-- A money renderer stub producing "1" for every amount. -/
def mnyOne : ℚ → Str := fun _ => ['1']

/-- A one-character item. -/
def itemA : Item := ⟨['a'], 1, 1, none⟩

/-- A context where 'あ' measures 50 mm (wider than half the description
column) and every other character measures 1. -/
def ctxWide : Ctx := ⟨fun _ c => if c = 'あ' then 50 * mm else 1, fun _ => ['1'], false⟩

/-- An item whose description wraps to three lines under ctxWide. -/
def itemWide : Item := ⟨['あ', 'あ', 'あ'], 1, 1, none⟩

/-- Witness for the page-break contract: at cursor 0 the one-line item
triggers exactly one break. -/
theorem table_page_break_witness :
    tableStep ctxUnit mnyOne 0 (0, []) itemA =
      ((resetRowY - row_height ctxUnit mnyOne itemA,
        bumpBucket [] (effRate 0 itemA) (itemSub itemA)),
       Instr.setFont 10 :: (pageBreakBlock ++ rowDraw ctxUnit mnyOne resetRowY itemA)) ∧
    (Instr.setFont 10 ::
        (pageBreakBlock ++ rowDraw ctxUnit mnyOne resetRowY itemA)).count
      Instr.newPage = 1 := by
  have hrh : row_height ctxUnit mnyOne itemA = 14 := by
    norm_num [row_height, max_lines, desc_lines, qty_lines, unit_lines, sub_lines,
      wrap_lines, wrap_lines_right, wrapLoop, stringWidth, ctxUnit, mnyOne, itemA,
      w_desc, w_qty, w_unit, w_sub, colx0, colx1, colx2, colx3, colx4,
      pad_l, pad_r, mm, margin_x, pageW, line_h, itemSub]
  exact (table_page_break ctxUnit mnyOne 0 0 [] itemA).1
    (by rw [hrh]; norm_num [mm])

/-- Witness for the row-height contract: a 3/1/1/1 line-count split yields a
row height of 3 × line_h. -/
theorem row_height_spec_witness :
    row_height ctxWide mnyOne itemWide = 3 * line_h := by
  have hc : ('1' : Char) ≠ 'あ' := by decide
  have h1 : (desc_lines ctxWide itemWide).length = 3 := by
    norm_num [desc_lines, wrap_lines, wrapLoop, stringWidth, ctxWide, itemWide,
      w_desc, colx0, colx1, pad_l, pad_r, mm, margin_x]
    simp
  have h2 : (qty_lines ctxWide itemWide).length = 1 := by
    norm_num [qty_lines, wrap_lines_right, wrap_lines, wrapLoop, stringWidth,
      ctxWide, itemWide, w_qty, colx1, colx2, pad_l, pad_r, mm, margin_x, hc]
  have h3 : (unit_lines ctxWide mnyOne itemWide).length = 1 := by
    norm_num [unit_lines, wrap_lines_right, wrap_lines, wrapLoop, stringWidth,
      ctxWide, mnyOne, itemWide, w_unit, colx2, colx3, pad_l, pad_r, mm, margin_x,
      hc]
  have h4 : (sub_lines ctxWide mnyOne itemWide).length = 1 := by
    norm_num [sub_lines, wrap_lines_right, wrap_lines, wrapLoop, stringWidth,
      ctxWide, mnyOne, itemWide, w_sub, colx3, colx4, pad_l, pad_r, mm, margin_x,
      pageW, itemSub, hc]
  exact (row_height_spec ctxWide mnyOne 0 0 [] itemWide).2.2.2 h1 h2 h3 h4

/-! ## Money formatting lemmas (claims C6, C7) -/

/-- digitChar always yields a decimal digit character. -/
theorem digitChar_isDigit (d : ℕ) : (digitChar d).isDigit = true := by
  unfold digitChar
  have h : d % 10 < 10 := Nat.mod_lt _ (by norm_num)
  revert h
  generalize d % 10 = e
  intro h
  interval_cases e <;> decide

/-- Characters of a grouped digit run are the input characters or commas. -/
theorem mem_groupLSF : ∀ (ds : List Char) (k : ℕ), ∀ c ∈ groupLSF ds k,
    c ∈ ds ∨ c = ',' := by
  intro ds
  induction ds with
  | nil => intro k c h; cases h
  | cons d rest ih =>
      intro k c h
      unfold groupLSF at h
      split at h
      · rcases List.mem_cons.mp h with rfl | h'
        · exact Or.inl (List.mem_cons_self _ _)
        · rcases List.mem_cons.mp h' with rfl | h''
          · exact Or.inr rfl
          · rcases ih (k + 1) c h'' with hm | hc
            · exact Or.inl (List.mem_cons_of_mem _ hm)
            · exact Or.inr hc
      · rcases List.mem_cons.mp h with rfl | h'
        · exact Or.inl (List.mem_cons_self _ _)
        · rcases ih (k + 1) c h' with hm | hc
          · exact Or.inl (List.mem_cons_of_mem _ hm)
          · exact Or.inr hc

/-- Characters of the grouped rendering: commas or digits. -/
theorem mem_natCharsGroupedMSF (n : ℕ) :
    ∀ c ∈ natCharsGroupedMSF n, c = ',' ∨ c.isDigit = true := by
  intro c h
  unfold natCharsGroupedMSF at h
  split at h
  · simp at h
    subst h
    exact Or.inr (by decide)
  · rw [List.mem_reverse] at h
    rcases mem_groupLSF _ 0 c h with hm | hc
    · obtain ⟨d, _, rfl⟩ := List.mem_map.mp hm
      exact Or.inr (digitChar_isDigit d)
    · exact Or.inl hc

/-- Characters of the ungrouped rendering: digits only. -/
theorem mem_natCharsMSF (n : ℕ) :
    ∀ c ∈ natCharsMSF n, c.isDigit = true := by
  intro c h
  unfold natCharsMSF at h
  split at h
  · simp at h
    subst h
    decide
  · rw [List.mem_reverse] at h
    obtain ⟨d, _, rfl⟩ := List.mem_map.mp h
    exact digitChar_isDigit d

/-- Characters of a left-zero-padded digit run: the pad zeros or the run. -/
theorem mem_padZeros (d : ℕ) (cs : List Char) :
    ∀ c ∈ padZeros d cs, c = '0' ∨ c ∈ cs := by
  intro c h
  unfold padZeros at h
  rcases List.mem_append.mp h with h' | h'
  · exact Or.inl (List.eq_of_mem_replicate h')
  · exact Or.inr h'

/-- The digit extraction of n < 10 ^ d has at most d digits. -/
theorem digitsAux_length_le : ∀ (fuel n d : ℕ), n < 10 ^ d →
    (digitsAux fuel n).length ≤ d := by
  intro fuel
  induction fuel with
  | zero => intro n d h; simp [digitsAux]
  | succ fuel ih =>
      intro n d h
      unfold digitsAux
      split
      · simp
      · rename_i hn
        cases d with
        | zero =>
            rw [pow_zero] at h
            omega
        | succ d' =>
            simp only [List.length_cons]
            have hdiv : n / 10 < 10 ^ d' := by
              rw [Nat.div_lt_iff_lt_mul (by norm_num : (0:ℕ) < 10)]
              calc n < 10 ^ (d' + 1) := h
                _ = 10 ^ d' * 10 := by ring
            have := ih (n / 10) d' hdiv
            omega

/-- Every character of formatFixed is a sign, comma, point, or digit. -/
theorem mem_formatFixed (g : Bool) (d : ℕ) (v : ℚ) :
    ∀ c ∈ formatFixed g d v,
      c = '-' ∨ c = ',' ∨ c = '.' ∨ c.isDigit = true := by
  intro c h
  unfold formatFixed at h
  dsimp only at h
  rcases List.mem_append.mp h with h' | h'
  · rcases List.mem_append.mp h' with hs | hip
    · split at hs
      · simp at hs
        exact Or.inl hs
      · cases hs
    · split at hip
      · rcases mem_natCharsGroupedMSF _ c hip with hc | hd
        · exact Or.inr (Or.inl hc)
        · exact Or.inr (Or.inr (Or.inr hd))
      · exact Or.inr (Or.inr (Or.inr (mem_natCharsMSF _ c hip)))
  · split at h'
    · cases h'
    · rcases List.mem_cons.mp h' with rfl | hfp
      · exact Or.inr (Or.inr (Or.inl rfl))
      · rcases mem_padZeros _ _ c hfp with rfl | hm
        · exact Or.inr (Or.inr (Or.inr (by decide)))
        · rw [List.mem_reverse] at hm
          obtain ⟨e, _, rfl⟩ := List.mem_map.mp hm
          exact Or.inr (Or.inr (Or.inr (digitChar_isDigit e)))

/-- With zero fractional digits there is no decimal point in the output. -/
theorem dot_not_mem_formatFixed_zero (g : Bool) (v : ℚ) :
    '.' ∉ formatFixed g 0 v := by
  intro h
  unfold formatFixed at h
  dsimp only at h
  rcases List.mem_append.mp h with h' | h'
  · rcases List.mem_append.mp h' with hs | hip
    · split at hs
      · simp at hs
      · cases hs
    · split at hip
      · rcases mem_natCharsGroupedMSF _ _ hip with hc | hd
        · exact absurd hc (by decide)
        · exact absurd hd (by decide)
      · exact absurd (mem_natCharsMSF _ _ hip) (by decide)
  · simp at h'

/-- The two-digit fractional part is exactly two digit characters. -/
theorem padZeros_two (m : ℕ) (hm : m < 100) :
    ∃ d1 d2, padZeros 2 ((natDigitsLSF m).map digitChar).reverse = [d1, d2] ∧
      d1.isDigit = true ∧ d2.isDigit = true := by
  have hd : (digitsAux m m).length ≤ 2 :=
    digitsAux_length_le m m 2 (by simpa using hm)
  have hlen : (padZeros 2 ((natDigitsLSF m).map digitChar).reverse).length = 2 := by
    unfold padZeros natDigitsLSF
    simp only [List.length_append, List.length_replicate, List.length_reverse,
      List.length_map]
    omega
  obtain ⟨d1, d2, hd12⟩ := List.length_eq_two.mp hlen
  refine ⟨d1, d2, hd12, ?_, ?_⟩
  · have hmem : d1 ∈ padZeros 2 ((natDigitsLSF m).map digitChar).reverse := by
      rw [hd12]; simp
    rcases mem_padZeros _ _ d1 hmem with rfl | hm'
    · decide
    · rw [List.mem_reverse] at hm'
      obtain ⟨e, _, rfl⟩ := List.mem_map.mp hm'
      exact digitChar_isDigit e
  · have hmem : d2 ∈ padZeros 2 ((natDigitsLSF m).map digitChar).reverse := by
      rw [hd12]; simp
    rcases mem_padZeros _ _ d2 hmem with rfl | hm'
    · decide
    · rw [List.mem_reverse] at hm'
      obtain ⟨e, _, rfl⟩ := List.mem_map.mp hm'
      exact digitChar_isDigit e

/-- A non-JPY currency code formats with the two-fractional-digit rule and no
symbol (src lines 272-274, else branch). -/
theorem money_ne_jpy (c : Str) (v : ℚ) (h : c ≠ jpy) :
    money c v = formatFixed true 2 v := by
  unfold money
  rw [if_neg h]

/-- The half-even rounding of 2469/2 × 10² (the takeaways of the 1234.5
example at two fractional digits). -/
theorem roundHalfEven_123450 : roundHalfEven (|(2469 / 2 : ℚ)| * 10 ^ 2) = 123450 := by
  have habs : |(2469 / 2 : ℚ)| = 2469 / 2 := by norm_num
  rw [habs]
  unfold roundHalfEven
  have hfl : ⌊(2469 / 2 : ℚ) * 10 ^ 2⌋ = 123450 := by
    norm_num [Int.floor_eq_iff]
  rw [hfl]
  norm_num

/-- The half-even rounding of 2469/2 at zero fractional digits: the tie at
1234.5 rounds to the even 1234. -/
theorem roundHalfEven_1234 : roundHalfEven (|(2469 / 2 : ℚ)| * 10 ^ 0) = 1234 := by
  have habs : |(2469 / 2 : ℚ)| = 2469 / 2 := by norm_num
  rw [habs]
  unfold roundHalfEven
  have hfl : ⌊(2469 / 2 : ℚ) * 10 ^ 0⌋ = 1234 := by
    norm_num [Int.floor_eq_iff]
  rw [hfl]
  norm_num

/-- Concrete evaluation: 1234.5 formatted at two fractional digits with
grouping. -/
theorem formatFixed_2469_two : formatFixed true 2 (2469 / 2) = "1,234.50".toList := by
  unfold formatFixed
  dsimp only
  rw [roundHalfEven_123450, if_neg (by norm_num : ¬(2469 / 2 : ℚ) < 0)]
  decide

/-- Concrete evaluation: 1234.5 formatted at zero fractional digits with
grouping (half-even tie to 1234). -/
theorem formatFixed_2469_zero : formatFixed true 0 (2469 / 2) = "1,234".toList := by
  unfold formatFixed
  dsimp only
  rw [roundHalfEven_1234, if_neg (by norm_num : ¬(2469 / 2 : ℚ) < 0)]
  decide

/-- Claim C6: the money formatter selects the fractional-digit count and the
symbol solely from the currency code — "JPY" renders with zero fractional
digits (no decimal point anywhere) and a prefixed "¥"; every other code
renders with exactly two fractional digits after a unique decimal point and
no "¥" — digits are grouped with thousands separators, 1234.5 under a
two-fractional-digit currency renders as "1,234.50", and the same half-even
rounding rule (here: to "¥1,234") applies to every amount under "JPY". -/
theorem money_format (c : Str) (v : ℚ) :
    (money jpy v = '¥' :: formatFixed true 0 v ∧ '.' ∉ formatFixed true 0 v) ∧
    (c ≠ jpy →
      money c v = formatFixed true 2 v ∧
      '¥' ∉ money c v ∧
      ∃ p d1 d2, money c v = p ++ ['.', d1, d2] ∧
        d1.isDigit = true ∧ d2.isDigit = true ∧ '.' ∉ p) ∧
    money ("USD".toList) (2469 / 2) = "1,234.50".toList ∧
    money jpy (2469 / 2) = "¥1,234".toList := by
  refine ⟨⟨by unfold money; rw [if_pos rfl], dot_not_mem_formatFixed_zero true v⟩,
    ?_, ?_, ?_⟩
  · intro h
    have hm := money_ne_jpy c v h
    refine ⟨hm, ?_, ?_⟩
    · rw [hm]
      intro hmem
      rcases mem_formatFixed true 2 v '¥' hmem with h1 | h1 | h1 | h1 <;>
        exact absurd h1 (by decide)
    · obtain ⟨d1, d2, hfp, hd1, hd2⟩ := padZeros_two
        ((roundHalfEven (|v| * 10 ^ 2)).toNat % 10 ^ 2)
        (Nat.mod_lt _ (by norm_num))
      have hdef : formatFixed true 2 v =
          (if v < 0 then ['-'] else []) ++
            natCharsGroupedMSF ((roundHalfEven (|v| * 10 ^ 2)).toNat / 10 ^ 2) ++
            ('.' :: padZeros 2
              (((natDigitsLSF ((roundHalfEven (|v| * 10 ^ 2)).toNat % 10 ^ 2)).map
                digitChar).reverse)) := rfl
      refine ⟨(if v < 0 then ['-'] else []) ++
          natCharsGroupedMSF ((roundHalfEven (|v| * 10 ^ 2)).toNat / 10 ^ 2),
        d1, d2, ?_, hd1, hd2, ?_⟩
      · rw [hm, hdef, hfp, List.append_assoc]
      · intro hdot
        rcases List.mem_append.mp hdot with hs | hip
        · split at hs
          · simp at hs
          · cases hs
        · rcases mem_natCharsGroupedMSF _ _ hip with h1 | h1 <;>
            exact absurd h1 (by decide)
  · rw [money_ne_jpy _ _ (by decide), formatFixed_2469_two]
  · unfold money
    rw [if_pos rfl, formatFixed_2469_zero]
    rfl

/-- Witness for the money-format contract at the code "EUR" and amount 3. -/
theorem money_format_witness :
    money ("EUR".toList) (3 : ℚ) = formatFixed true 2 3 :=
  ((money_format ("EUR".toList) 3).2.1 (by decide)).1

/-- Claim C7 counterexample: the absent currency code defaults to "JPY", but
a present unrecognized code such as "XXX" does NOT format like the default
code: at 1234.5 it renders "1,234.50" while the default renders "¥1,234". -/
theorem currency_default_cex :
    effCurrency none = jpy ∧
    effCurrency (some ("XXX".toList)) = "XXX".toList ∧
    money ("XXX".toList) (2469 / 2) = "1,234.50".toList ∧
    money (effCurrency none) (2469 / 2) = "¥1,234".toList ∧
    money ("XXX".toList) (2469 / 2) ≠ money (effCurrency none) (2469 / 2) := by
  have hxxx : money ("XXX".toList) (2469 / 2) = "1,234.50".toList := by
    rw [money_ne_jpy _ _ (by decide), formatFixed_2469_two]
  have hjpy : money (effCurrency none) (2469 / 2) = "¥1,234".toList := by
    show money jpy (2469 / 2) = "¥1,234".toList
    unfold money
    rw [if_pos rfl, formatFixed_2469_zero]
    rfl
  refine ⟨rfl, rfl, hxxx, hjpy, ?_⟩
  rw [hxxx, hjpy]
  decide

/-- Claim C7 amended: the currency code controlling formatting defaults to
the fixed code "JPY" only when the record's code is absent; a present but
unrecognized code is kept as-is and formats exactly like the recognized
non-JPY currencies (two fractional digits, no symbol), not like the default
code. -/
theorem currency_default (o : Option Str) (v : ℚ) (c : Str) :
    effCurrency none = jpy ∧
    (o = none → money (effCurrency o) v = '¥' :: formatFixed true 0 v) ∧
    (c ≠ jpy →
      money c v = formatFixed true 2 v ∧ money c v = money ("USD".toList) v) := by
  refine ⟨rfl, ?_, ?_⟩
  · rintro rfl
    show money jpy v = '¥' :: formatFixed true 0 v
    unfold money
    rw [if_pos rfl]
  · intro h
    refine ⟨money_ne_jpy c v h, ?_⟩
    rw [money_ne_jpy c v h, money_ne_jpy ("USD".toList) v (by decide)]

/-- Witness for the amended currency-default statement at "EUR" and amount
7, and at the absent code. -/
theorem currency_default_witness :
    money (effCurrency none) 7 = '¥' :: formatFixed true 0 7 ∧
    money ("EUR".toList) 7 = money ("USD".toList) 7 :=
  ⟨(currency_default none 7 ("EUR".toList)).2.1 rfl,
   ((currency_default none 7 ("EUR".toList)).2.2 (by decide)).2⟩

/-! ## Phase page-break inventories (claims C8, C9) -/

/-- The totals loop draws only right-aligned text, never a page break. -/
theorem newPage_not_mem_totalsLoop (mny : ℚ → Str) (bs : List (ℚ × ℚ)) :
    ∀ (ks : List ℚ) (y : ℚ), Instr.newPage ∉ (totalsLoop mny bs y ks).1 := by
  intro ks
  induction ks with
  | nil => intro y h; simp [totalsLoop] at h
  | cons r rs ih =>
      intro y h
      simp only [totalsLoop] at h
      rcases List.mem_cons.mp h with h' | h' <;> try exact absurd h'.symm (by simp)
      rcases List.mem_cons.mp h' with h'' | h'' <;> try exact absurd h''.symm (by simp)
      rcases List.mem_cons.mp h'' with h3 | h3 <;> try exact absurd h3.symm (by simp)
      rcases List.mem_cons.mp h3 with h4 | h4
      · exact absurd h4.symm (by simp)
      · exact ih (y - 28) h4

/-- The whole totals phase never emits a page break. -/
theorem newPage_not_mem_totalsPhase (mny : ℚ → Str) (y : ℚ) (bs : List (ℚ × ℚ)) :
    Instr.newPage ∉ (totalsPhase mny y bs).1 := by
  unfold totalsPhase
  dsimp only
  intro h
  rcases List.mem_cons.mp h with h' | h'
  · exact absurd h' (by simp)
  · rcases List.mem_append.mp h' with h'' | h''
    · exact newPage_not_mem_totalsLoop mny bs _ _ h''
    · simp at h''

/-- The draw_wrapped character loop draws only left-aligned text. -/
theorem newPage_not_mem_drawWrappedAux (cw : Char → ℚ) (x maxW lh : ℚ) :
    ∀ (s cur : Str) (y : ℚ),
      Instr.newPage ∉ (drawWrappedAux cw x maxW lh cur y s).1 := by
  intro s
  induction s with
  | nil =>
      intro cur y h
      unfold drawWrappedAux at h
      split at h
      · simp at h
      · simp at h
  | cons ch rest ih =>
      intro cur y h
      unfold drawWrappedAux at h
      split at h
      · exact ih _ _ h
      · rcases List.mem_cons.mp h with h' | h'
        · exact absurd h'.symm (by simp)
        · exact ih [ch] (y - lh) h'

/-- draw_wrapped never emits a page break. -/
theorem newPage_not_mem_draw_wrapped (cw : Char → ℚ) (size x y maxW lh : ℚ)
    (t : Str) : Instr.newPage ∉ (draw_wrapped cw size x y maxW lh t).1 := by
  unfold draw_wrapped
  dsimp only
  intro h
  rcases List.mem_cons.mp h with h' | h'
  · exact absurd h'.symm (by simp)
  · exact newPage_not_mem_drawWrappedAux cw x maxW lh t [] y h'

/-- The seller/buyer block loop never emits a page break. -/
theorem newPage_not_mem_drawBlock (cw : Char → ℚ) (x maxW : ℚ) :
    ∀ (ls : List Str) (y : ℚ), Instr.newPage ∉ (drawBlock cw x maxW y ls).1 := by
  intro ls
  induction ls with
  | nil => intro y h; simp [drawBlock] at h
  | cons l rest ih =>
      intro y h
      unfold drawBlock at h
      split at h
      · exact ih _ h
      · dsimp only at h
        rcases List.mem_append.mp h with h' | h'
        · exact newPage_not_mem_draw_wrapped cw 10 x y maxW 12 l h'
        · exact ih _ h'

/-- A meta value block never emits a page break. -/
theorem newPage_not_mem_metaVal (cw : Char → ℚ) (x maxW y : ℚ) (val : Str) :
    Instr.newPage ∉ (metaVal cw x maxW y val).1 := by
  unfold metaVal
  dsimp only
  exact newPage_not_mem_linesBlock _ _ (fun yy l => by simp) _ _

/-- The meta label/value loop never emits a page break. -/
theorem newPage_not_mem_metaLoop (cw : Char → ℚ) (x maxW : ℚ) :
    ∀ (fields : List (Str × Str)) (y : ℚ),
      Instr.newPage ∉ (metaLoop cw x maxW y fields).1 := by
  intro fields
  induction fields with
  | nil => intro y h; simp [metaLoop] at h
  | cons f rest ih =>
      obtain ⟨lbl, val⟩ := f
      intro y h
      unfold metaLoop at h
      dsimp only at h
      rcases List.mem_cons.mp h with h' | h'
      · exact absurd h'.symm (by simp)
      · rcases List.mem_append.mp h' with h'' | h''
        · exact newPage_not_mem_metaVal cw x maxW (y - 12) val h''
        · exact ih _ h''

/-- The header phase (title, logo, seller, meta, buyer, section titles) never
emits a page break. -/
theorem newPage_not_mem_headerPhase (ctx : Ctx) (d : InvoiceData) :
    Instr.newPage ∉ (headerPhase ctx d).1 := by
  unfold headerPhase
  dsimp only
  intro h
  rcases List.mem_append.mp h with h | h
  swap
  · exact absurd h (by simp)
  rcases List.mem_append.mp h with h | h
  swap
  · exact newPage_not_mem_drawBlock _ _ _ _ _ h
  rcases List.mem_append.mp h with h | h
  swap
  · exact absurd h (by simp)
  rcases List.mem_append.mp h with h | h
  swap
  · exact newPage_not_mem_metaLoop _ _ _ _ _ h
  rcases List.mem_append.mp h with h | h
  swap
  · exact absurd h (by simp)
  rcases List.mem_append.mp h with h | h
  swap
  · split at h
    · simp at h
    · dsimp only at h
      rcases List.mem_cons.mp h with h' | h'
      · exact absurd h'.symm (by simp)
      · exact newPage_not_mem_metaVal _ _ _ _ _ h'
  rcases List.mem_append.mp h with h | h
  swap
  · exact newPage_not_mem_drawBlock _ _ _ _ _ h
  rcases List.mem_append.mp h with h | h
  swap
  · exact absurd h (by simp)
  rcases List.mem_append.mp h with h | h
  · exact absurd h (by simp)
  · split at h
    · exact absurd h (by simp)
    · simp at h

/-- The table column header block never emits a page break. -/
theorem newPage_not_mem_tableHeaderPhase (table_top : ℚ) :
    Instr.newPage ∉ (tableHeaderPhase table_top).1 := by
  simp [tableHeaderPhase]

/-- Claim C9: the totals phase performs no overflow check and never emits a
page break for any cursor position and any bucket list (its first rule is
placed at cursor − 6 unconditionally, even below the bottom margin); the
header and table-header phases are likewise break-free, so page breaks can
only be emitted by the item-row phase and the note phase. -/
theorem totals_no_page_break (ctx : Ctx) (d : InvoiceData) (mny : ℚ → Str)
    (y : ℚ) (bs : List (ℚ × ℚ)) :
    Instr.newPage ∉ (totalsPhase mny y bs).1 ∧
    (totalsPhase mny y bs).1.head? =
      some (Instr.hline margin_x (y - 6) (pageW - margin_x) (y - 6)) ∧
    Instr.newPage ∉ (headerPhase ctx d).1 ∧
    Instr.newPage ∉ (tableHeaderPhase y).1 :=
  ⟨newPage_not_mem_totalsPhase mny y bs, rfl,
   newPage_not_mem_headerPhase ctx d, newPage_not_mem_tableHeaderPhase y⟩

/-- Claim C8: an empty item list renders without failure: the item loop
contributes no instructions (empty table body) and leaves the cursor and
buckets untouched, the totals come out as 0 and the total line draws
money(0 + 0); and in every render the final showPage is explicitly emitted,
so the instruction stream always ends with (and hence contains) at least one
finalized page. -/
theorem empty_items_render (ctx : Ctx) (d : InvoiceData) (y : ℚ) :
    (d.items = [] →
      (itemsLoop ctx (money (effCurrency d.currency)) d.tax_rate (y, []) d.items) =
        ((y, []), [])) ∧
    (totalsLoop (money (effCurrency d.currency)) [] y (sortedRates [])).2.2.1 = 0 ∧
    (totalsLoop (money (effCurrency d.currency)) [] y (sortedRates [])).2.2.2 = 0 ∧
    totalsPhase (money (effCurrency d.currency)) y [] =
      ([Instr.hline margin_x (y - 6) (pageW - margin_x) (y - 6),
        Instr.hline margin_x (y - 6 - 18) (pageW - margin_x) (y - 6 - 18),
        Instr.rtext totals_x_label (y - 6 - 18 - 18) ("小計 / Subtotal".toList),
        Instr.rtext totals_x_val (y - 6 - 18 - 18)
          (money (effCurrency d.currency) 0),
        Instr.setFont 12,
        Instr.rtext totals_x_label (y - 6 - 18 - 32) ("合計 / Total".toList),
        Instr.rtext totals_x_val (y - 6 - 18 - 32)
          (money (effCurrency d.currency) (0 + 0))],
       y - 6 - 18 - 32) ∧
    (generate_invoice_pdf ctx d).getLast? = some Instr.newPage ∧
    1 ≤ (generate_invoice_pdf ctx d).count Instr.newPage := by
  refine ⟨fun h => by rw [h]; rfl, rfl, rfl, rfl, ?_, ?_⟩
  · unfold generate_invoice_pdf
    dsimp only
    exact List.getLast?_concat _
  · unfold generate_invoice_pdf
    dsimp only
    rw [List.count_append]
    simp

/-- Witness for the empty-items render at a concrete empty invoice. -/
theorem empty_items_render_witness :
    itemsLoop ctxUnit (money (effCurrency none)) 0 ((0 : ℚ), []) [] = (((0 : ℚ), []), []) :=
  (empty_items_render ctxUnit
    ⟨[], [], [], [], [], [], [], [], [], [], [], [], none, 0, [], []⟩ 0).1 rfl

/-! ## Batch CSV parsing lemmas (claim C10) -/

/-- If either component fails to parse, the try-block yields (0, 0). -/
theorem parseQU_eq_zero (pf : Str → Option ℚ) (qty unit : Str)
    (h : pf qty = none ∨ pf unit = none) : parseQU pf qty unit = (0, 0) := by
  unfold parseQU
  rcases h with h | h
  · rw [h]
  · rw [h]
    cases pf qty <;> rfl

/-- Claim C10: in the batch CSV items cell, a part with fewer than three
pipe-separated segments produces no item; when either the quantity or the
unit-price segment fails to parse, both become 0.0 (discarding the one that
would have parsed); and a non-empty but unparseable fourth segment leaves
the tax override absent, falling back to the invoice default rate. -/
theorem batch_item_parse (pf : Str → Option ℚ) (part : Str) :
    (((splitOnCh '|' (trim part)).map trim).length < 3 → parsePart pf part = []) ∧
    (3 ≤ ((splitOnCh '|' (trim part)).map trim).length →
      ((pf (((splitOnCh '|' (trim part)).map trim).getD 1 []) = none ∨
          pf (((splitOnCh '|' (trim part)).map trim).getD 2 []) = none) →
        ∃ tv, parsePart pf part =
          [⟨((splitOnCh '|' (trim part)).map trim).getD 0 [], 0, 0, tv⟩]) ∧
      (((splitOnCh '|' (trim part)).map trim).getD 3 [] ≠ [] →
        pf (((splitOnCh '|' (trim part)).map trim).getD 3 []) = none →
        ∃ q u, parsePart pf part =
          [⟨((splitOnCh '|' (trim part)).map trim).getD 0 [], q, u, none⟩])) := by
  by_cases hp : trim part = []
  · have hlen : ((splitOnCh '|' (trim part)).map trim).length = 1 := by
      rw [hp]
      rfl
    refine ⟨fun _ => ?_, fun h3 => absurd h3 (by omega)⟩
    unfold parsePart
    rw [if_pos hp]
  · constructor
    · intro hlen
      unfold parsePart
      rw [if_neg hp]
      dsimp only
      rw [if_neg (by omega : ¬3 ≤ ((splitOnCh '|' (trim part)).map trim).length)]
    · intro h3
      constructor
      · intro hqu
        refine ⟨if 4 ≤ ((splitOnCh '|' (trim part)).map trim).length ∧
            ((splitOnCh '|' (trim part)).map trim).getD 3 [] ≠ [] then
            pf (((splitOnCh '|' (trim part)).map trim).getD 3 []) else none, ?_⟩
        unfold parsePart
        rw [if_neg hp]
        dsimp only
        rw [if_pos h3, parseQU_eq_zero pf _ _ hqu]
      · intro hseg3 hpf3
        refine ⟨(parseQU pf (((splitOnCh '|' (trim part)).map trim).getD 1 [])
            (((splitOnCh '|' (trim part)).map trim).getD 2 [])).1,
          (parseQU pf (((splitOnCh '|' (trim part)).map trim).getD 1 [])
            (((splitOnCh '|' (trim part)).map trim).getD 2 [])).2, ?_⟩
        unfold parsePart
        rw [if_neg hp]
        dsimp only
        rw [if_pos h3]
        have htv : (if 4 ≤ ((splitOnCh '|' (trim part)).map trim).length ∧
            ((splitOnCh '|' (trim part)).map trim).getD 3 [] ≠ [] then
            pf (((splitOnCh '|' (trim part)).map trim).getD 3 []) else none) = none := by
          split
          · exact hpf3
          · rfl
        rw [htv]

/-- A float parser stub accepting exactly the string "1". -/
def pfOne : Str → Option ℚ := fun s => if s = ['1'] then some 1 else none

/-- Witness for the CSV part parsing: a two-segment part is skipped, and a
part whose unit price fails to parse and whose tax segment is unparseable
yields an item with the default-rate fallback. -/
theorem batch_item_parse_witness :
    parsePart pfOne ("a|b".toList) = [] ∧
    (∃ q u, parsePart pfOne (" x|1|zz|9 ".toList) = [⟨['x'], q, u, none⟩]) :=
  ⟨(batch_item_parse pfOne ("a|b".toList)).1 (by decide),
   ((batch_item_parse pfOne (" x|1|zz|9 ".toList)).2 (by decide)).2
     (by decide) (by decide)⟩

end Invoice
